import Mathlib

/-!
# Verification of the `fuzzy` spelling-correction engine

A shallow embedding of `fuzzy.go` (package `fuzzy`): Go strings become
`List Char`, Go maps with their zero-value defaults become total functions
(`String → int` maps become `Str → Int` with absent keys reading `0`;
`String → []string` maps become `Str → List Str` with absent keys reading
`[]`), Go slices become Lean lists, and the one place the code can panic
(byte indexing in `best`) is embedded with an `Option` result.

Definitions follow the Go source line by line; theorems settle the frozen
claims about the specification.
-/

set_option maxHeartbeats 1000000

/-- Go strings are embedded as lists of characters. -/
abbrev Str := List Char

/-! ## Edit-Distance Calculator (`Levenshtein`, fuzzy.go lines 70–98)

The Go function keeps two rolling rows, `previous` and `current`.  Both
slices are allocated zero-filled; on entry to iteration `i` the code copies
`current` into `previous`, re-zeroes `current`, sets `current[0] = i` and
fills `current[1..n]` left to right from `previous[j]`, `current[j-1]` and
`previous[j-1]`.  Nothing ever initializes row 0 to `0,1,2,…`, so at `i = 1`
the `previous` row read by the recurrence is all zeros — the embedding
reproduces this faithfully. -/

/-- Inner loop of `Levenshtein` (fuzzy.go 85–94): build `current[1..]` left
to right.  `prev` is the suffix of the previous row starting at index
`j - 1`, `left` is `current[j-1]`; `add`, `delete` and `change` of the Go
code are `up + 1`, `left + 1` and `diag + 1`. -/
def levRowAux : Str → Char → List Nat → Nat → List Nat
  | [], _, _, _ => []
  | ac :: rest, bc, prev, left =>
      let diag := prev.headD 0
      let up := prev.tail.headD 0
      let v := if ac = bc then diag else min (min (up + 1) (left + 1)) (diag + 1)
      v :: levRowAux rest bc prev.tail v

/-- Outer loop of `Levenshtein` (fuzzy.go 81–95): iterate over the
characters of `b` with the 1-based counter `i`, carrying the current row
(`current[0] = i` followed by the inner loop's output). -/
def levLoop : List Char → Nat → Str → List Nat → List Nat
  | [], _, _, cur => cur
  | bc :: brest, i, a, cur => levLoop brest (i + 1) a (i :: levRowAux a bc cur i)

/-- `Levenshtein` (fuzzy.go 70–98): swap so `a` is the shorter string, run
the row loop starting from the zero-filled initial row, return
`current[n]`. -/
def Levenshtein (x y : Str) : Nat :=
  let a := if x.length > y.length then y else x
  let b := if x.length > y.length then x else y
  (levLoop b 1 a (List.replicate (a.length + 1) 0)).getD a.length 0

/-! ## Deletion-Variant Generator (`Edits1`, `EditsMulti`) -/

/-- `Edits1` (fuzzy.go 152–171): split the word at every position
`i = 0,…,n`, and for each split emit the second part with its first
character deleted (or the first part alone when the second is empty). -/
def Edits1 (word : Str) : List Str :=
  let splits := (List.range (word.length + 1)).map fun i => (word.take i, word.drop i)
  splits.map fun elem => if elem.2.length > 0 then elem.1 ++ elem.2.tail else elem.1

/-- One iteration of the `EditsMulti` loop body (fuzzy.go 141–146): Go's
`range edits` snapshots the slice, so the appends of one round visit only
the elements present when the round began — the round maps `Edits1` over
the snapshot and appends everything. -/
def editsStep (edits : List Str) : List Str :=
  edits ++ edits.flatMap Edits1

/-- `EditsMulti` (fuzzy.go 134–149) for a positive depth: start from
`Edits1 term` and run the expansion round `depth - 1` times (the Go loop
decrements `depth` before testing, so depth 1 performs no rounds).  For
`depth ≤ 0` the Go loop never terminates; that behaviour is modelled
separately by `EditsMultiLoopRun`. -/
def EditsMulti (term : Str) (depth : Int) : List Str :=
  editsStep^[(depth - 1).toNat] (Edits1 term)

/-- The raw `EditsMulti` loop (fuzzy.go 136–147) as a fuel-indexed step
function over the Go `int` depth: each iteration decrements `depth`,
stops when it is exactly `0`, and otherwise runs one expansion round.
`none` means the fuel ran out before the loop stopped. -/
def EditsMultiLoopRun : Int → List Str → Nat → Option (List Str)
  | _, _, 0 => none
  | d, edits, fuel + 1 =>
      if d - 1 = 0 then some edits else EditsMultiLoopRun (d - 1) (editsStep edits) fuel

/-- Termination of the `EditsMulti` loop on a given term and depth: some
finite amount of fuel suffices for the loop to stop. -/
def EditsMultiTerminates (term : Str) (depth : Int) : Prop :=
  ∃ fuel, (EditsMultiLoopRun depth (Edits1 term) fuel).isSome

/-! ## Go maps as association lists -/

/-- Go map lookup with presence bit: `v, ok := m[k]`. -/
def lookupP {β : Type} : List (Str × β) → Str → Option β
  | [], _ => none
  | (k', v) :: rest, k => if k = k' then some v else lookupP rest k

/-- Go map read `m[k]`, which yields the zero value `d` for absent keys. -/
def lookupD {β : Type} (l : List (Str × β)) (k : Str) (d : β) : β :=
  (lookupP l k).getD d

/-- Go map assignment `m[k] = v`. -/
def setKey {β : Type} : List (Str × β) → Str → β → List (Str × β)
  | [], k, v => [(k, v)]
  | (k', v') :: rest, k, v =>
      if k = k' then (k, v) :: rest else (k', v') :: setKey rest k v

/-! ## Frequency Model -/

/-- The `Model` struct (fuzzy.go 22–29), with the two Go maps embedded as
association lists. -/
structure Model where
  Data : List (Str × Int)
  maxcount : Int
  suggest : List (Str × List Str)
  depth : Int
  threshold : Int
  chars : Int

/-- `NewModel`/`Init` (fuzzy.go 31–42): empty maps, depth 2, threshold 4. -/
def NewModel : Model :=
  { Data := [], maxcount := 0, suggest := [], depth := 2, threshold := 4, chars := 0 }

/-- `SetDepth` (fuzzy.go 46–48). -/
def SetDepth (model : Model) (val : Int) : Model :=
  { model with depth := val }

/-- `SetThreshold` (fuzzy.go 52–54). -/
def SetThreshold (model : Model) (val : Int) : Model :=
  { model with threshold := val }

/-- `score` (fuzzy.go 173–178): the term's count, `0` when never trained. -/
def score (model : Model) (input : Str) : Int :=
  lookupD model.Data input 0

/-- The index list currently stored under a variant (`model.suggest[edit]`,
reading the empty slice for an absent key). -/
def suggestOf (model : Model) (edit : Str) : List Str :=
  lookupD model.suggest edit []

/-- The duplicate-suppressing append performed for one `edit` inside
`TrainWord`'s indexing loop (fuzzy.go 117–129): append `term` to
`suggest[edit]` unless it is already listed or the variant is too short. -/
def suggestInsert (term : Str) (sg : List (Str × List Str)) (edit : Str) :
    List (Str × List Str) :=
  if term ∉ lookupD sg edit [] ∧ 1 < edit.length then
    setKey sg edit (lookupD sg edit [] ++ [term])
  else sg

/-- `TrainWord` (fuzzy.go 108–131): increment the term's count, maintain
`maxcount`, and exactly when the new count equals the threshold append the
term to the index list of every deletion variant of length `> 1`. -/
def TrainWord (model : Model) (term : Str) : Model :=
  let newCount := lookupD model.Data term 0 + 1
  let data := setKey model.Data term newCount
  let mx := if newCount > model.maxcount then newCount else model.maxcount
  if newCount = model.threshold then
    { model with Data := data, maxcount := mx
                 suggest := (EditsMulti term model.depth).foldl (suggestInsert term) model.suggest }
  else
    { model with Data := data, maxcount := mx }

/-- `Train` (fuzzy.go 101–105): train word by word. -/
def Train (model : Model) (terms : List Str) : Model :=
  terms.foldl TrainWord model

/-! ## Candidates and the Suggestion Engine -/

/-- The `Potential` struct (fuzzy.go 15–20). -/
structure Potential where
  term : Str
  score : Int
  leven : Nat
  method : Nat
deriving DecidableEq

/-- Insertion into the `suggestions` map keyed by term (the Go pattern
`if _, ok := suggestions[pot]; !ok { suggestions[pot] = … }`): keep the
map insertion-ordered as a list, never overwriting an existing term. -/
def insertPot (l : List Potential) (p : Potential) : List Potential :=
  if p.term ∈ l.map Potential.term then l else l ++ [p]

/-- Tier 0 of `suggestPotential` (fuzzy.go 243–248): the lower-cased input
itself, when its frequency is above 5. -/
def sp0 (m : Model) (input : Str) : List Potential :=
  if score m input > 5 then
    insertPot [] { term := input, score := score m input, leven := 0, method := 0 }
  else []

/-- Tier 1 of `suggestPotential` (fuzzy.go 251–256): every term listed in
the Deletion Index under the input itself. -/
def sp1 (m : Model) (input : Str) (s0 : List Potential) : List Potential :=
  (suggestOf m input).foldl
    (fun s pot =>
      insertPot s { term := pot, score := score m pot, leven := Levenshtein input pot, method := 1 })
    s0

/-- Tier 2 of `suggestPotential` (fuzzy.go 264–276), suggestion part:
every deletion variant of the input that is itself a dictionary term of
length above 2. -/
def sp2 (m : Model) (input : Str) (edits : List Str) (s1 : List Potential) : List Potential :=
  edits.foldl
    (fun s edit =>
      if score m edit > 0 ∧ 2 < edit.length then
        insertPot s { term := edit, score := score m edit,
                      leven := Levenshtein input edit, method := 2 }
      else s)
    s1

/-- Tier 2 of `suggestPotential`, `max` accumulator (fuzzy.go 264–276).
The Go loop updates `suggestions` and `max` independently, so the two
accumulators are computed by separate folds over the same list. -/
def sp2max (m : Model) (edits : List Str) : Int :=
  edits.foldl
    (fun mx edit =>
      if (score m edit > 0 ∧ 2 < edit.length) ∧ score m edit > mx then score m edit else mx)
    0

/-- Tier 3 of `suggestPotential` (fuzzy.go 287–299): for every deletion
variant of the input, every term indexed under that variant whose true
distance to the input is at most `depth + 1`. -/
def sp3 (m : Model) (input : Str) (edits : List Str) (s2 : List Potential) : List Potential :=
  edits.foldl
    (fun s edit =>
      (suggestOf m edit).foldl
        (fun s' pot =>
          if (Levenshtein input pot : Int) ≤ m.depth + 1 then
            insertPot s' { term := pot, score := score m pot,
                           leven := Levenshtein input pot, method := 3 }
          else s')
        s)
    s2

/-- `suggestPotential` (fuzzy.go 238–301): lower-case the input, then run
the four cascading tiers; when `exhaustive` is false, return at the first
tier that fires (dictionary hit above 5, index hit on the input, or a
positive-score deletion variant). -/
def suggestPotential (m : Model) (input0 : Str) (exhaustive : Bool) : List Potential :=
  let input := input0.map Char.toLower
  let s0 := sp0 m input
  if score m input > 5 ∧ exhaustive = false then s0 else
  let s1 := sp1 m input s0
  if (lookupP m.suggest input).isSome ∧ exhaustive = false then s1 else
  let edits := EditsMulti input m.depth
  let s2 := sp2 m input edits s1
  if sp2max m edits > 0 ∧ exhaustive = false then s2 else
  sp3 m input edits s2

/-- `Suggestions` (fuzzy.go 303–310): `make([]string, 10)` pre-sizes the
output with ten empty strings, and the loop appends every candidate term
after them. -/
def Suggestions (m : Model) (input : Str) (exhaustive : Bool) : List Str :=
  (suggestPotential m input exhaustive).foldl
    (fun output suggestion => output ++ [suggestion.term])
    (List.replicate 10 [])

/-! ## Candidate Ranker (`best`, fuzzy.go 181–207)

`best` indexes `pot.term[0]` and `input[0]`, which panics in Go when the
term or the input is empty; the embedding returns `none` in exactly those
states.  The inner loop either returns early on a distance-0 candidate
(`Sum.inl`), or finishes the tier with the updated running best term and
score (`Sum.inr`). -/

/-- One pass of `best`'s inner loop over the candidates at distance tier
`i`, starting from running best `b` and running score `bc`. -/
def bestTier (input : Str) (i : Nat) : List Potential → Str → Int → Option (Str ⊕ (Str × Int))
  | [], b, bc => some (Sum.inr (b, bc))
  | p :: rest, b, bc =>
      if p.leven = 0 then some (Sum.inl p.term)
      else if p.leven = i then
        if p.score > bc then
          match p.term, input with
          | [], _ => none
          | _ :: _, [] => none
          | tc :: _, ic :: _ =>
              let bc1 := p.score
              let bc2 := if tc = ic then bc1 + bc1 * 100 else bc1
              bestTier input i rest p.term bc2
        else bestTier input i rest b bc
      else bestTier input i rest b bc

/-- `best`'s outer loop over the distance tiers `i = 0, 1, 2, 3`: after a
tier, return the running best if its score is positive, else move on. -/
def bestLoop (input : Str) (pots : List Potential) : List Nat → Str → Int → Option Str
  | [], b, _ => some b
  | i :: is, b, bc =>
      match bestTier input i pots b bc with
      | none => none
      | some (Sum.inl t) => some t
      | some (Sum.inr (b', bc')) => if bc' > 0 then some b' else bestLoop input pots is b' bc'

/-- `best` (fuzzy.go 181–207). -/
def best (input : Str) (potential : List Potential) : Option Str :=
  bestLoop input potential [0, 1, 2, 3] [] 0

/-- `SpellCheck` (fuzzy.go 313–316). -/
def SpellCheck (model : Model) (input : Str) : Option Str :=
  best input (suggestPotential model input false)

/-! ## Reachable model states

The public mutating API is `Train`/`TrainWord` plus the two setters; the
states a caller can ever observe are the ones reachable from `NewModel`
through them.  `SetDepth` is restricted to positive depths, the only ones
for which the Go `EditsMulti` loop terminates (see `EditsMultiTerminates`). -/

inductive Reachable : Model → Prop
  | init : Reachable NewModel
  | train (m : Model) (t : Str) : Reachable m → Reachable (TrainWord m t)
  | setDepth (m : Model) (d : Int) : Reachable m → 1 ≤ d → Reachable (SetDepth m d)
  | setThreshold (m : Model) (v : Int) : Reachable m → Reachable (SetThreshold m v)

/-- Model states reachable from `start` by training alone (the threshold
and depth are held fixed along the way). -/
inductive TrainedFrom (start : Model) : Model → Prop
  | refl : TrainedFrom start start
  | train (m : Model) (t : Str) : TrainedFrom start m → TrainedFrom start (TrainWord m t)

/-- A freshly initialized model whose depth and threshold have been set
before any training. -/
def initModel (d k : Int) : Model :=
  SetThreshold (SetDepth NewModel d) k

/-! ## Helper lemmas: association-list maps -/

theorem lookupP_setKey {β : Type} (l : List (Str × β)) (k key : Str) (v : β) :
    lookupP (setKey l k v) key = if key = k then some v else lookupP l key := by
  induction l with
  | nil => by_cases h : key = k <;> simp [setKey, lookupP, h]
  | cons hd tl ih =>
      obtain ⟨k', v'⟩ := hd
      by_cases hk : k = k'
      · subst hk
        by_cases h : key = k <;> simp [setKey, lookupP, h]
      · by_cases h : key = k'
        · subst h
          simp [setKey, lookupP, hk, Ne.symm hk]
        · simp [setKey, lookupP, hk, h, ih]

theorem lookupD_setKey {β : Type} (l : List (Str × β)) (k key : Str) (v d : β) :
    lookupD (setKey l k v) key d = if key = k then v else lookupD l key d := by
  by_cases h : key = k <;> simp [lookupD, lookupP_setKey, h]

/-! ## Helper lemmas: `Edits1` -/

theorem edits1_eq (w : Str) :
    Edits1 w = (List.range w.length).map (fun i => w.take i ++ (w.drop i).tail) ++ [w] := by
  unfold Edits1
  rw [List.map_map, List.range_succ, List.map_append]
  congr 1
  · apply List.map_congr_left
    intro i hi
    have h : i < w.length := List.mem_range.mp hi
    have : 0 < (w.drop i).length := by simp [List.length_drop]; omega
    simp [Function.comp, this]
    omega
  · have : (w.drop w.length).length = 0 := by simp
    simp [Function.comp, this, List.drop_eq_nil_of_le (le_refl w.length)]

theorem edits1_length (w : Str) : (Edits1 w).length = w.length + 1 := by
  rw [edits1_eq]; simp

theorem edits1_elem_length {w e : Str} (h : e ∈ Edits1 w) :
    e.length = w.length ∨ e.length + 1 = w.length := by
  rw [edits1_eq] at h
  rcases List.mem_append.mp h with h | h
  · obtain ⟨i, hi, rfl⟩ := List.mem_map.mp h
    have hlt : i < w.length := List.mem_range.mp hi
    right
    simp [List.length_take, List.length_tail, List.length_drop]
    omega
  · left
    simp at h
    rw [h]

theorem edits1_count_self (w : Str) : (Edits1 w).count w = 1 := by
  rw [edits1_eq, List.count_append]
  have h0 : ((List.range w.length).map (fun i => w.take i ++ (w.drop i).tail)).count w = 0 := by
    apply List.count_eq_zero.mpr
    intro hmem
    obtain ⟨i, hi, he⟩ := List.mem_map.mp hmem
    have hlt : i < w.length := List.mem_range.mp hi
    have : (w.take i ++ (w.drop i).tail).length = w.length - 1 := by
      simp [List.length_take, List.length_tail, List.length_drop]
      omega
    rw [he] at this
    omega
  rw [h0]
  simp

/-- C8: single-round deletion-variant generation on a string of length `n`
produces exactly `n + 1` output strings, each of length `n` or `n - 1`, and
exactly one of the outputs equals the input string unchanged. -/
theorem edits1_spec (w : Str) :
    (Edits1 w).length = w.length + 1
    ∧ (∀ e ∈ Edits1 w, e.length = w.length ∨ e.length + 1 = w.length)
    ∧ (Edits1 w).count w = 1 :=
  ⟨edits1_length w, fun _ he => edits1_elem_length he, edits1_count_self w⟩

/-- C8 witness: the deletion variant `"a"` of `"ab"` has length 1 or 2, and
`"ab"` occurs exactly once among its own variants. -/
theorem edits1_spec_witness :
    ((['a'] : Str).length = (['a', 'b'] : Str).length
      ∨ (['a'] : Str).length + 1 = (['a', 'b'] : Str).length)
    ∧ (Edits1 ['a', 'b']).count ['a', 'b'] = 1 :=
  ⟨(edits1_spec ['a', 'b']).2.1 ['a'] (by decide), (edits1_spec ['a', 'b']).2.2⟩

/-! ## C1 and C2: the Levenshtein contract fails

The Go code never initializes the first dynamic-programming row to
`0, 1, 2, …` (both slices start zero-filled and `previous` is a copy of the
zero row on the first iteration), so prefixes of the shorter string can be
dropped at no cost.  The mathlib `levenshtein` with `defaultCost` is the
textbook minimum number of unit-cost insertions, deletions and
substitutions, used as the reference. -/

/-- C1: the code's `Levenshtein` does not return the minimum number of
single-character edits: on `a = "ab"`, `b = "ba"` it returns 1, while the
true minimum edit distance (mathlib's `levenshtein` at unit costs) is 2. -/
theorem levenshtein_not_minimal :
    Levenshtein ['a', 'b'] ['b', 'a'] = 1
    ∧ levenshtein Levenshtein.defaultCost ['a', 'b'] ['b', 'a'] = 2 := by
  constructor <;> decide

/-- C2: the code's `Levenshtein` is not symmetric: it maps `("abc", "bca")`
to 1 but `("bca", "abc")` to 2 (the missing first-row initialization makes
the result depend on the argument order for equal-length strings). -/
theorem levenshtein_not_symmetric :
    Levenshtein ['a', 'b', 'c'] ['b', 'c', 'a'] = 1
    ∧ Levenshtein ['b', 'c', 'a'] ['a', 'b', 'c'] = 2 := by
  constructor <;> decide

/-! ## C10: termination of the `EditsMulti` loop -/

theorem editsMultiLoopRun_isSome {fuel : Nat} :
    ∀ {d : Int} {ed : List Str}, (EditsMultiLoopRun d ed fuel).isSome → 1 ≤ d := by
  induction fuel with
  | zero => intro d ed h; simp [EditsMultiLoopRun] at h
  | succ n ih =>
      intro d ed h
      rw [EditsMultiLoopRun] at h
      by_cases hd : d - 1 = 0
      · omega
      · rw [if_neg hd] at h
        have := ih h
        omega

theorem editsMultiLoopRun_succ (n : Nat) :
    ∀ ed : List Str, EditsMultiLoopRun ((n : Int) + 1) ed (n + 1) = some (editsStep^[n] ed) := by
  induction n with
  | zero => intro ed; simp [EditsMultiLoopRun]
  | succ k ih =>
      intro ed
      rw [EditsMultiLoopRun]
      push_cast
      have hne : ((k : Int) + 1 + 1) - 1 ≠ 0 := by omega
      have harg : ((k : Int) + 1 + 1) - 1 = (k : Int) + 1 := by omega
      rw [if_neg hne, harg, ih (editsStep ed), Function.iterate_succ_apply]

theorem editsMultiLoopRun_eq (t : Str) (d : Int) (hd : 1 ≤ d) :
    EditsMultiLoopRun d (Edits1 t) d.toNat = some (EditsMulti t d) := by
  obtain ⟨n, hn⟩ : ∃ n : Nat, d = (n : Int) + 1 := ⟨(d - 1).toNat, by omega⟩
  subst hn
  have h1 : ((n : Int) + 1).toNat = n + 1 := by omega
  have h2 : ((n : Int) + 1 - 1).toNat = n := by omega
  rw [h1, EditsMulti, h2, editsMultiLoopRun_succ]

/-- C10: the `EditsMulti` loop terminates on a term if and only if the
depth is at least 1 (for `depth ≤ 0` the loop decrements the counter past
zero and the `depth == 0` exit is never reached); for positive depth its
result is the `depth - 1`-fold expansion `EditsMulti` computes. -/
theorem editsMulti_terminates_iff (t : Str) (d : Int) :
    (EditsMultiTerminates t d ↔ 1 ≤ d)
    ∧ (1 ≤ d → EditsMultiLoopRun d (Edits1 t) d.toNat = some (EditsMulti t d)) := by
  refine ⟨⟨fun h => ?_, fun h => ?_⟩, editsMultiLoopRun_eq t d⟩
  · obtain ⟨fuel, hf⟩ := h
    exact editsMultiLoopRun_isSome hf
  · exact ⟨d.toNat, by rw [editsMultiLoopRun_eq t d h]; rfl⟩

/-- C10 witness: at depth 2 the loop for `"ab"` terminates and computes
exactly `EditsMulti "ab" 2`. -/
theorem editsMulti_terminates_iff_witness :
    EditsMultiTerminates ['a', 'b'] 2
    ∧ EditsMultiLoopRun 2 (Edits1 ['a', 'b']) (2 : Int).toNat = some (EditsMulti ['a', 'b'] 2) :=
  ⟨((editsMulti_terminates_iff ['a', 'b'] 2).1).mpr (by decide),
    (editsMulti_terminates_iff ['a', 'b'] 2).2 (by decide)⟩

/-! ## C3: `Suggestions` prepends ten empty placeholder entries -/

theorem foldl_append_term (l : List Potential) (init : List Str) :
    l.foldl (fun output suggestion => output ++ [suggestion.term]) init
      = init ++ l.map Potential.term := by
  induction l generalizing init with
  | nil => simp
  | cons p rest ih => simp [List.foldl_cons, ih, List.append_assoc]

/-- C3: for every model (with a terminating depth), input and exhaustive
flag, the list returned by `Suggestions` is ten empty-string placeholder
entries followed by the candidate terms: the `make([]string, 10)`
pre-sizing prepends blank entries to every result list. -/
theorem suggestions_blank_padding (m : Model) (input : Str) (exhaustive : Bool)
    (hd : 1 ≤ m.depth) :
    Suggestions m input exhaustive
      = List.replicate 10 []
          ++ (suggestPotential m input exhaustive).map Potential.term := by
  unfold Suggestions
  exact foldl_append_term _ _

/-- C3 witness: on the fresh model the suggestion list for `"ab"` is the
ten blanks followed by the (empty) candidate list. -/
theorem suggestions_blank_padding_witness :
    Suggestions NewModel ['a', 'b'] false
      = List.replicate 10 []
          ++ (suggestPotential NewModel ['a', 'b'] false).map Potential.term :=
  suggestions_blank_padding NewModel ['a', 'b'] false (by decide)

/-! ## C9: exhaustive suggestions extend non-exhaustive ones

Every tier only ever appends to the insertion-ordered candidate map, and
the `exhaustive` flag controls nothing but the early returns, so the
non-exhaustive result is a prefix of the exhaustive one. -/

theorem insertPot_extends (l : List Potential) (p : Potential) :
    ∃ c, insertPot l p = l ++ c := by
  unfold insertPot
  by_cases h : p.term ∈ l.map Potential.term
  · exact ⟨[], by simp [h]⟩
  · exact ⟨[p], by simp [h]⟩

theorem foldl_extends {β : Type} (f : List Potential → β → List Potential)
    (hf : ∀ s b, ∃ c, f s b = s ++ c) :
    ∀ (l : List β) (s : List Potential), ∃ c, l.foldl f s = s ++ c := by
  intro l
  induction l with
  | nil => exact fun s => ⟨[], by simp⟩
  | cons b rest ih =>
      intro s
      obtain ⟨c1, hc1⟩ := hf s b
      obtain ⟨c2, hc2⟩ := ih (f s b)
      exact ⟨c1 ++ c2, by rw [List.foldl_cons, hc2, hc1, List.append_assoc]⟩

theorem sp1_extends (m : Model) (input : Str) (s0 : List Potential) :
    ∃ c, sp1 m input s0 = s0 ++ c :=
  foldl_extends _ (fun s pot => insertPot_extends s _) _ s0

theorem sp2_extends (m : Model) (input : Str) (edits : List Str) (s1 : List Potential) :
    ∃ c, sp2 m input edits s1 = s1 ++ c := by
  apply foldl_extends _ _ _ s1
  intro s edit
  by_cases h : score m edit > 0 ∧ 2 < edit.length
  · simpa [h] using insertPot_extends s _
  · exact ⟨[], by simp [h]⟩

theorem sp3_extends (m : Model) (input : Str) (edits : List Str) (s2 : List Potential) :
    ∃ c, sp3 m input edits s2 = s2 ++ c := by
  apply foldl_extends _ _ _ s2
  intro s edit
  apply foldl_extends _ _ _ s
  intro s' pot
  by_cases h : (Levenshtein input pot : Int) ≤ m.depth + 1
  · simpa [h] using insertPot_extends s' _
  · exact ⟨[], by simp [h]⟩

theorem suggestPotential_false_extends (m : Model) (input : Str) :
    ∃ c, suggestPotential m input true = suggestPotential m input false ++ c := by
  unfold suggestPotential
  simp only [Bool.true_eq_false, and_false, if_false, and_true]
  by_cases h0 : score m (input.map Char.toLower) > 5
  · rw [if_pos h0]
    obtain ⟨c1, hc1⟩ := sp1_extends m (input.map Char.toLower) (sp0 m (input.map Char.toLower))
    obtain ⟨c2, hc2⟩ := sp2_extends m (input.map Char.toLower)
      (EditsMulti (input.map Char.toLower) m.depth) (sp1 m (input.map Char.toLower) _)
    obtain ⟨c3, hc3⟩ := sp3_extends m (input.map Char.toLower)
      (EditsMulti (input.map Char.toLower) m.depth) (sp2 m (input.map Char.toLower) _ _)
    exact ⟨c1 ++ c2 ++ c3, by
      rw [hc3, hc2, hc1]
      simp [List.append_assoc]⟩
  · rw [if_neg h0]
    by_cases h1 : (lookupP m.suggest (input.map Char.toLower)).isSome
    · rw [if_pos h1]
      obtain ⟨c2, hc2⟩ := sp2_extends m (input.map Char.toLower)
        (EditsMulti (input.map Char.toLower) m.depth) (sp1 m (input.map Char.toLower) _)
      obtain ⟨c3, hc3⟩ := sp3_extends m (input.map Char.toLower)
        (EditsMulti (input.map Char.toLower) m.depth) (sp2 m (input.map Char.toLower) _ _)
      exact ⟨c2 ++ c3, by rw [hc3, hc2]; simp [List.append_assoc]⟩
    · rw [if_neg h1]
      by_cases h2 : sp2max m (EditsMulti (input.map Char.toLower) m.depth) > 0
      · rw [if_pos h2]
        obtain ⟨c3, hc3⟩ := sp3_extends m (input.map Char.toLower)
          (EditsMulti (input.map Char.toLower) m.depth) (sp2 m (input.map Char.toLower) _ _)
        exact ⟨c3, hc3⟩
      · rw [if_neg h2]
        exact ⟨[], by simp⟩

/-- C9: for every model (with a terminating depth) and input, every term in
the non-exhaustive `Suggestions` result also appears in the exhaustive one:
the exhaustive candidate set is a superset. -/
theorem suggestions_exhaustive_superset (m : Model) (input t : Str)
    (hd : 1 ≤ m.depth) (ht : t ∈ Suggestions m input false) :
    t ∈ Suggestions m input true := by
  unfold Suggestions at ht ⊢
  rw [foldl_append_term] at ht ⊢
  rcases List.mem_append.mp ht with h | h
  · exact List.mem_append.mpr (Or.inl h)
  · obtain ⟨c, hc⟩ := suggestPotential_false_extends m input
    refine List.mem_append.mpr (Or.inr ?_)
    rw [hc, List.map_append]
    exact List.mem_append.mpr (Or.inl h)

/-- C9 witness: a blank entry of the non-exhaustive result for `"ab"` on
the fresh model is also in the exhaustive result. -/
theorem suggestions_exhaustive_superset_witness :
    ([] : Str) ∈ Suggestions NewModel ['a', 'b'] true :=
  suggestions_exhaustive_superset NewModel ['a', 'b'] [] (by decide) (by decide)

/-! ## C5: indexing happens exactly at the threshold crossing -/

theorem suggestInsert_lookup (t : Str) (sg : List (Str × List Str)) (e key : Str) :
    lookupD (suggestInsert t sg e) key []
      = if key = e ∧ t ∉ lookupD sg e [] ∧ 1 < e.length
        then lookupD sg e [] ++ [t] else lookupD sg key [] := by
  unfold suggestInsert
  by_cases hg : t ∉ lookupD sg e [] ∧ 1 < e.length
  · rw [if_pos hg, lookupD_setKey]
    by_cases hk : key = e
    · simp [hk, hg]
    · simp [hk]
  · rw [if_neg hg, if_neg (fun h => hg h.2)]

theorem foldl_suggestInsert_frame (t : Str) :
    ∀ (l : List Str) (sg : List (Str × List Str)) (key : Str), key ∉ l →
      lookupD (l.foldl (suggestInsert t) sg) key [] = lookupD sg key [] := by
  intro l
  induction l with
  | nil => intro sg key _; rfl
  | cons e rest ih =>
      intro sg key hk
      rw [List.foldl_cons, ih _ _ (fun h => hk (List.mem_cons_of_mem _ h)),
        suggestInsert_lookup]
      have : key ≠ e := fun h => hk (h ▸ List.mem_cons_self e rest)
      simp [this]

theorem foldl_suggestInsert_short (t : Str) :
    ∀ (l : List Str) (sg : List (Str × List Str)) (key : Str), ¬ 1 < key.length →
      lookupD (l.foldl (suggestInsert t) sg) key [] = lookupD sg key [] := by
  intro l
  induction l with
  | nil => intro sg key _; rfl
  | cons e rest ih =>
      intro sg key hk
      rw [List.foldl_cons, ih _ _ hk, suggestInsert_lookup]
      by_cases hke : key = e
      · subst hke; rw [if_neg (fun h => hk h.2.2)]
      · simp [hke]

theorem foldl_suggestInsert_mem_mono (t : Str) :
    ∀ (l : List Str) (sg : List (Str × List Str)) (key : Str),
      t ∈ lookupD sg key [] → t ∈ lookupD (l.foldl (suggestInsert t) sg) key [] := by
  intro l
  induction l with
  | nil => intro sg key h; exact h
  | cons e rest ih =>
      intro sg key h
      rw [List.foldl_cons]
      apply ih
      rw [suggestInsert_lookup]
      by_cases hc : key = e ∧ t ∉ lookupD sg e [] ∧ 1 < e.length
      · rw [if_pos hc]
        exact List.mem_append.mpr (Or.inr (List.mem_singleton.mpr rfl))
      · rw [if_neg hc]; exact h

theorem foldl_suggestInsert_mem (t : Str) :
    ∀ (l : List Str) (sg : List (Str × List Str)) (e : Str), e ∈ l → 1 < e.length →
      t ∈ lookupD (l.foldl (suggestInsert t) sg) e [] := by
  intro l
  induction l with
  | nil => intro sg e he _; exact absurd he (List.not_mem_nil e)
  | cons a rest ih =>
      intro sg e he hlen
      rw [List.foldl_cons]
      rcases List.mem_cons.mp he with he | he
      · subst he
        apply foldl_suggestInsert_mem_mono
        rw [suggestInsert_lookup]
        by_cases hmem : t ∈ lookupD sg e []
        · simp [hmem]
        · simp [hmem, hlen]
      · exact ih _ _ he hlen

theorem trainWord_threshold_suggest (m : Model) (t : Str)
    (hcross : lookupD m.Data t 0 + 1 = m.threshold) :
    (TrainWord m t).suggest
      = (EditsMulti t m.depth).foldl (suggestInsert t) m.suggest := by
  unfold TrainWord
  rw [if_pos hcross]

theorem trainWord_data (m : Model) (t s : Str) :
    lookupD (TrainWord m t).Data s 0
      = if s = t then lookupD m.Data t 0 + 1 else lookupD m.Data s 0 := by
  unfold TrainWord
  by_cases h : lookupD m.Data t 0 + 1 = m.threshold
  · rw [if_pos h]; exact lookupD_setKey _ _ _ _ _
  · rw [if_neg h]; exact lookupD_setKey _ _ _ _ _

theorem trainWord_threshold_eq (m : Model) (t : Str) :
    (TrainWord m t).threshold = m.threshold := by
  unfold TrainWord
  by_cases h : lookupD m.Data t 0 + 1 = m.threshold <;> simp [h]

theorem trainWord_depth_eq (m : Model) (t : Str) :
    (TrainWord m t).depth = m.depth := by
  unfold TrainWord
  by_cases h : lookupD m.Data t 0 + 1 = m.threshold <;> simp [h]

theorem trainWord_suggest_of_ne (m : Model) (t : Str)
    (h : lookupD m.Data t 0 + 1 ≠ m.threshold) :
    (TrainWord m t).suggest = m.suggest := by
  unfold TrainWord
  rw [if_neg h]

/-- C5: on the single `TrainWord` call that raises `t`'s count to exactly
the threshold (with depth ≥ 1 and threshold ≥ 1), `t` is added to the
Deletion Index list of every variant of length > 1 in `EditsMulti t depth`,
no other key's list changes (in particular no key of length ≤ 1), and a
further training call for `t` leaves the whole index untouched, so the
insertion step runs exactly once. -/
theorem trainWord_indexes_at_threshold (m : Model) (t : Str)
    (hdep : 1 ≤ m.depth) (hthr : 1 ≤ m.threshold)
    (hcross : lookupD m.Data t 0 + 1 = m.threshold) :
    (∀ e ∈ EditsMulti t m.depth, 1 < e.length → t ∈ suggestOf (TrainWord m t) e)
    ∧ (∀ key, key ∉ EditsMulti t m.depth → suggestOf (TrainWord m t) key = suggestOf m key)
    ∧ (∀ key, ¬ 1 < key.length → suggestOf (TrainWord m t) key = suggestOf m key)
    ∧ (TrainWord (TrainWord m t) t).suggest = (TrainWord m t).suggest := by
  refine ⟨?_, ?_, ?_, ?_⟩
  · intro e he hlen
    unfold suggestOf
    rw [trainWord_threshold_suggest m t hcross]
    exact foldl_suggestInsert_mem t _ _ _ he hlen
  · intro key hk
    unfold suggestOf
    rw [trainWord_threshold_suggest m t hcross]
    exact foldl_suggestInsert_frame t _ _ _ hk
  · intro key hk
    unfold suggestOf
    rw [trainWord_threshold_suggest m t hcross]
    exact foldl_suggestInsert_short t _ _ _ hk
  · apply trainWord_suggest_of_ne
    rw [trainWord_data, if_pos rfl, hcross, trainWord_threshold_eq]
    omega

/-- C5 witness: with threshold 1 and depth 2, training `"ab"` once indexes
it under the variant `"ab"` of its deletion closure. -/
theorem trainWord_indexes_at_threshold_witness :
    ['a', 'b'] ∈ suggestOf (TrainWord (initModel 2 1) ['a', 'b']) ['a', 'b'] :=
  (trainWord_indexes_at_threshold (initModel 2 1) ['a', 'b'] (by decide) (by decide)
    (by decide)).1 ['a', 'b'] (by decide) (by decide)

/-! ## C7: indexed terms have reached the threshold -/

theorem foldl_suggestInsert_mem_inv (t : Str) :
    ∀ (l : List Str) (sg : List (Str × List Str)) (key x : Str),
      x ∈ lookupD (l.foldl (suggestInsert t) sg) key [] →
      x ∈ lookupD sg key [] ∨ x = t := by
  intro l
  induction l with
  | nil => intro sg key x h; exact Or.inl h
  | cons e rest ih =>
      intro sg key x h
      rw [List.foldl_cons] at h
      rcases ih _ _ _ h with h' | h'
      · rw [suggestInsert_lookup] at h'
        by_cases hc : key = e ∧ t ∉ lookupD sg e [] ∧ 1 < e.length
        · rw [if_pos hc] at h'
          rcases List.mem_append.mp h' with h'' | h''
          · exact Or.inl (hc.1 ▸ h'')
          · exact Or.inr (List.mem_singleton.mp h'')
        · rw [if_neg hc] at h'
          exact Or.inl h'
      · exact Or.inr h'

/-- C7: in every model state reachable from a freshly initialized model
(with its depth and threshold configured once, up front) by training alone,
every term listed in the Deletion Index under some variant has a frequency
count at least the threshold. -/
theorem trained_index_count_ge_threshold (d k : Int) (m : Model)
    (hreach : TrainedFrom (initModel d k) m) :
    ∀ key t, t ∈ suggestOf m key → m.threshold ≤ lookupD m.Data t 0 := by
  induction hreach with
  | refl => intro key t ht; exact absurd ht (List.not_mem_nil t)
  | train m' t' hprev ih =>
      intro key t ht
      rw [trainWord_threshold_eq]
      unfold suggestOf at ht
      rw [trainWord_data]
      by_cases hcross : lookupD m'.Data t' 0 + 1 = m'.threshold
      · rw [trainWord_threshold_suggest m' t' hcross] at ht
        rcases foldl_suggestInsert_mem_inv t' _ _ _ _ ht with hmem | rfl
        · have hle := ih key t hmem
          by_cases hx : t = t'
          · subst hx; rw [if_pos rfl]; omega
          · rw [if_neg hx]; exact hle
        · rw [if_pos rfl]; omega
      · rw [trainWord_suggest_of_ne m' t' hcross] at ht
        have hle := ih key t ht
        by_cases hx : t = t'
        · subst hx; rw [if_pos rfl]; omega
        · rw [if_neg hx]; exact hle

/-- C7 witness: after training `"ab"` once at threshold 1, the indexed term
`"ab"` has count at least the threshold. -/
theorem trained_index_count_ge_threshold_witness :
    (TrainWord (initModel 2 1) ['a', 'b']).threshold
      ≤ lookupD (TrainWord (initModel 2 1) ['a', 'b']).Data ['a', 'b'] 0 :=
  trained_index_count_ge_threshold 2 1 (TrainWord (initModel 2 1) ['a', 'b'])
    (TrainedFrom.train _ ['a', 'b'] TrainedFrom.refl) ['a', 'b'] ['a', 'b'] (by decide)

/-! ## C4: the first-character bonus is order-dependent

The bonus multiplies the *running best score* after a candidate is
selected, not the candidate's own score in the comparison, and the
comparison `pot.score > bestcalc` is strict — so with equal scores the
candidate iterated first wins the tier, whether or not it shares the
query's first character. -/

/-- C4 counterexample: query `"cat"` with two candidates of equal score 3
and equal code-distance 1, `"car"` (shares the first character) and
`"bat"` (does not).  When `"bat"` is iterated first, `best` returns
`"bat"`, not the term sharing the query's first character. -/
theorem ranker_first_char_cex :
    Levenshtein ['c', 'a', 't'] ['c', 'a', 'r'] = 1
    ∧ Levenshtein ['c', 'a', 't'] ['b', 'a', 't'] = 1
    ∧ (['c', 'a', 'r'] : Str).head? = (['c', 'a', 't'] : Str).head?
    ∧ ((['b', 'a', 't'] : Str).head? == (['c', 'a', 't'] : Str).head?) = false
    ∧ best ['c', 'a', 't']
        [{ term := ['b', 'a', 't'], score := 3, leven := 1, method := 1 },
         { term := ['c', 'a', 'r'], score := 3, leven := 1, method := 1 }]
        = some ['b', 'a', 't']
    ∧ best ['c', 'a', 't']
        [{ term := ['c', 'a', 'r'], score := 3, leven := 1, method := 1 },
         { term := ['b', 'a', 't'], score := 3, leven := 1, method := 1 }]
        = some ['c', 'a', 'r'] := by
  refine ⟨by decide, by decide, by decide, by decide, by decide, by decide⟩

/-- C4 amended: with two candidates of equal positive score and equal
nonzero distance `d ≤ 3`, one sharing the query's first character and one
not, the Ranker returns the term sharing the first character *provided that
candidate is iterated first*; when the other candidate is iterated first
the strict `>` comparison lets it keep the tie (see the counterexample). -/
theorem ranker_first_char_when_first (input : Str) (pX pY : Potential) (d : Nat)
    (hd1 : 1 ≤ d) (hd3 : d ≤ 3)
    (hlX : pX.leven = d) (hlY : pY.leven = d)
    (hs : 0 < pX.score) (hsY : pY.score = pX.score)
    (hinX : pX.term.head? = input.head?)
    (hinY : pY.term.head? ≠ input.head?)
    (htm : pX.term ≠ []) (hin : input ≠ []) :
    best input [pX, pY] = some pX.term := by
  obtain ⟨ic, irest, rfl⟩ : ∃ c r, input = c :: r := by
    cases input with
    | nil => exact absurd rfl hin
    | cons c r => exact ⟨c, r, rfl⟩
  obtain ⟨tc, trest, htX⟩ : ∃ c r, pX.term = c :: r := by
    cases hX : pX.term with
    | nil => exact absurd hX htm
    | cons c r => exact ⟨c, r, rfl⟩
  have htc : tc = ic := by
    rw [htX] at hinX
    simpa using hinX
  have hnY : ¬ (pY.score > pX.score + pX.score * 100) := by
    rw [hsY]; omega
  have hpos : pX.score + pX.score * 100 > 0 := by omega
  interval_cases d <;>
    simp [best, bestLoop, bestTier, hlX, hlY, hs, htX, htc, hnY, hpos]

/-- C4 witness: the amended preference at a concrete instance — `"car"`
iterated first beats `"bat"` for the query `"cat"`. -/
theorem ranker_first_char_when_first_witness :
    best ['c', 'a', 't']
        [{ term := ['c', 'a', 'r'], score := 3, leven := 1, method := 1 },
         { term := ['b', 'a', 't'], score := 3, leven := 1, method := 1 }]
      = some ['c', 'a', 'r'] :=
  ranker_first_char_when_first ['c', 'a', 't']
    { term := ['c', 'a', 'r'], score := 3, leven := 1, method := 1 }
    { term := ['b', 'a', 't'], score := 3, leven := 1, method := 1 } 1
    (by decide) (by decide) (by decide) (by decide) (by decide) (by decide)
    (by decide) (by decide) (by decide) (by decide)

/-! ## C6: totality of the core operations

The single panic site in the source is the byte indexing `pot.term[0]` /
`input[0]` in `best`.  On models reachable through the public API every
indexed term has length at least 2 and every index key has length at least
2, which rules the panic out for every query, empty input included. -/

theorem edits1_length_le {w e : Str} (h : e ∈ Edits1 w) : e.length ≤ w.length := by
  rcases edits1_elem_length h with h' | h' <;> omega

theorem editsStep_iterate_length_le (L : Nat) :
    ∀ (k : Nat) (l : List Str), (∀ x ∈ l, x.length ≤ L) →
      ∀ x ∈ editsStep^[k] l, x.length ≤ L := by
  intro k
  induction k with
  | zero => intro l hl; exact hl
  | succ n ih =>
      intro l hl
      rw [Function.iterate_succ_apply]
      apply ih
      intro x hx
      rcases List.mem_append.mp hx with hx | hx
      · exact hl x hx
      · obtain ⟨y, hy, hxy⟩ := List.mem_flatMap.mp hx
        exact le_trans (edits1_length_le hxy) (hl y hy)

theorem editsMulti_length_le {w : Str} {d : Int} :
    ∀ e ∈ EditsMulti w d, e.length ≤ w.length := by
  intro e he
  exact editsStep_iterate_length_le w.length _ (Edits1 w)
    (fun x hx => edits1_length_le hx) e he

/-- Invariant of the Deletion Index on reachable models: every present key
and every indexed term has length at least 2. -/
def GoodSuggest (sg : List (Str × List Str)) : Prop :=
  ∀ key l, lookupP sg key = some l → 2 ≤ key.length ∧ ∀ t ∈ l, 2 ≤ t.length

theorem goodSuggest_lookupD {sg : List (Str × List Str)} (hg : GoodSuggest sg) (key : Str) :
    ∀ w ∈ lookupD sg key [], 2 ≤ key.length ∧ 2 ≤ w.length := by
  intro w hw
  unfold lookupD at hw
  cases h : lookupP sg key with
  | none => rw [h] at hw; exact absurd hw (List.not_mem_nil w)
  | some l =>
      rw [h] at hw
      exact ⟨(hg key l h).1, (hg key l h).2 w hw⟩

theorem suggestInsert_good (t : Str) (sg : List (Str × List Str)) (e : Str)
    (hg : GoodSuggest sg) (ht : 1 < e.length → 2 ≤ t.length) :
    GoodSuggest (suggestInsert t sg e) := by
  unfold suggestInsert
  by_cases hguard : t ∉ lookupD sg e [] ∧ 1 < e.length
  · rw [if_pos hguard]
    intro key l hl
    rw [lookupP_setKey] at hl
    by_cases hk : key = e
    · rw [if_pos hk] at hl
      obtain rfl := Option.some_injective _ hl.symm
      refine ⟨hk ▸ (by omega : 2 ≤ e.length), ?_⟩
      intro x hx
      rcases List.mem_append.mp hx with hx | hx
      · exact (goodSuggest_lookupD hg e x hx).2
      · rw [List.mem_singleton.mp hx]
        exact ht hguard.2
    · rw [if_neg hk] at hl
      exact hg key l hl
  · rw [if_neg hguard]
    exact hg

theorem foldl_suggestInsert_good (t : Str) :
    ∀ (l : List Str) (sg : List (Str × List Str)), GoodSuggest sg →
      (∀ e ∈ l, 1 < e.length → 2 ≤ t.length) →
      GoodSuggest (l.foldl (suggestInsert t) sg) := by
  intro l
  induction l with
  | nil => intro sg hg _; exact hg
  | cons e rest ih =>
      intro sg hg hl
      rw [List.foldl_cons]
      exact ih _ (suggestInsert_good t sg e hg (hl e (List.mem_cons_self e rest)))
        (fun x hx => hl x (List.mem_cons_of_mem _ hx))

theorem reachable_goodSuggest {m : Model} (h : Reachable m) : GoodSuggest m.suggest := by
  induction h with
  | init => intro key l hl; exact absurd hl (by simp [NewModel, lookupP])
  | train m' t _ ih =>
      unfold TrainWord
      by_cases hc : lookupD m'.Data t 0 + 1 = m'.threshold
      · rw [if_pos hc]
        apply foldl_suggestInsert_good t _ _ ih
        intro e he hlen
        have := editsMulti_length_le e he
        omega
      · rw [if_neg hc]
        exact ih
  | setDepth m' d _ _ ih => exact ih
  | setThreshold m' v _ ih => exact ih

theorem insertPot_mem {l : List Potential} {q p : Potential}
    (h : p ∈ insertPot l q) : p ∈ l ∨ p = q := by
  unfold insertPot at h
  by_cases hq : q.term ∈ l.map Potential.term
  · rw [if_pos hq] at h; exact Or.inl h
  · rw [if_neg hq] at h
    rcases List.mem_append.mp h with h | h
    · exact Or.inl h
    · exact Or.inr (List.mem_singleton.mp h)

theorem foldl_mem_inv {β : Type} (f : List Potential → β → List Potential)
    (R : β → Potential → Prop)
    (hf : ∀ s b p, p ∈ f s b → p ∈ s ∨ R b p) :
    ∀ (l : List β) (s : List Potential) (p : Potential),
      p ∈ l.foldl f s → p ∈ s ∨ ∃ b ∈ l, R b p := by
  intro l
  induction l with
  | nil => intro s p h; exact Or.inl h
  | cons b rest ih =>
      intro s p h
      rw [List.foldl_cons] at h
      rcases ih (f s b) p h with h' | ⟨b', hb', hr⟩
      · rcases hf s b p h' with h'' | h''
        · exact Or.inl h''
        · exact Or.inr ⟨b, List.mem_cons_self b rest, h''⟩
      · exact Or.inr ⟨b', List.mem_cons_of_mem _ hb', hr⟩

theorem sp0_mem {m : Model} {input : Str} {p : Potential}
    (h : p ∈ sp0 m input) : p.leven = 0 := by
  unfold sp0 at h
  by_cases hs : score m input > 5
  · rw [if_pos hs] at h
    rcases insertPot_mem h with h' | h'
    · exact absurd h' (List.not_mem_nil p)
    · rw [h']
  · rw [if_neg hs] at h
    exact absurd h (List.not_mem_nil p)

theorem sp1_mem {m : Model} {input : Str} {s0 : List Potential} {p : Potential}
    (h : p ∈ sp1 m input s0) : p ∈ s0 ∨ ∃ w ∈ suggestOf m input, p.term = w := by
  refine foldl_mem_inv _ (fun w p => p.term = w) ?_ _ _ _ h
  intro s w q hq
  rcases insertPot_mem hq with h' | h'
  · exact Or.inl h'
  · exact Or.inr (by rw [h'])

theorem sp2_mem {m : Model} {input : Str} {edits : List Str} {s1 : List Potential}
    {p : Potential} (h : p ∈ sp2 m input edits s1) :
    p ∈ s1 ∨ ∃ e ∈ edits, p.term = e ∧ 2 < e.length := by
  refine foldl_mem_inv _ (fun e p => p.term = e ∧ 2 < e.length) ?_ _ _ _ h
  intro s e q hq
  by_cases hc : score m e > 0 ∧ 2 < e.length
  · rw [if_pos hc] at hq
    rcases insertPot_mem hq with h' | h'
    · exact Or.inl h'
    · exact Or.inr ⟨by rw [h'], hc.2⟩
  · rw [if_neg hc] at hq
    exact Or.inl hq

theorem sp3_mem {m : Model} {input : Str} {edits : List Str} {s2 : List Potential}
    {p : Potential} (h : p ∈ sp3 m input edits s2) :
    p ∈ s2 ∨ ∃ e ∈ edits, ∃ w ∈ suggestOf m e, p.term = w := by
  refine foldl_mem_inv _ (fun e p => ∃ w ∈ suggestOf m e, p.term = w) ?_ _ _ _ h
  intro s e q hq
  refine foldl_mem_inv _ (fun w p => p.term = w) ?_ _ _ _ hq
  intro s' w q' hq'
  by_cases hc : (Levenshtein input w : Int) ≤ m.depth + 1
  · rw [if_pos hc] at hq'
    rcases insertPot_mem hq' with h' | h'
    · exact Or.inl h'
    · exact Or.inr (by rw [h'])
  · rw [if_neg hc] at hq'
    exact Or.inl hq'

/-- A candidate is safe for the Ranker: either it is a distance-0 candidate
(returned before any indexing) or both its term and the original input are
nonempty, so `pot.term[0]` and `input[0]` are in bounds. -/
def PotOK (input0 : Str) (p : Potential) : Prop :=
  p.leven = 0 ∨ (p.term ≠ [] ∧ input0 ≠ [])

theorem suggestPotential_potOK (m : Model) (input0 : Str) (ex : Bool)
    (hg : GoodSuggest m.suggest) :
    ∀ p ∈ suggestPotential m input0 ex, PotOK input0 p := by
  have hin : ∀ k : Nat, 2 ≤ k → (input0.map Char.toLower).length = k → input0 ≠ [] := by
    intro k hk hl hnil
    rw [hnil] at hl
    simp at hl
    omega
  have hin' : 2 ≤ (input0.map Char.toLower).length → input0 ≠ [] := fun h =>
    hin _ h rfl
  have h0 : ∀ p ∈ sp0 m (input0.map Char.toLower), PotOK input0 p :=
    fun p hp => Or.inl (sp0_mem hp)
  have h1 : ∀ p ∈ sp1 m (input0.map Char.toLower) (sp0 m (input0.map Char.toLower)),
      PotOK input0 p := by
    intro p hp
    rcases sp1_mem hp with hp' | ⟨w, hw, ht⟩
    · exact h0 p hp'
    · obtain ⟨hkey, hwlen⟩ := goodSuggest_lookupD hg _ w hw
      refine Or.inr ⟨?_, hin' hkey⟩
      rw [ht]
      intro hnil
      rw [hnil] at hwlen
      simp at hwlen
  have h2 : ∀ p ∈ sp2 m (input0.map Char.toLower)
      (EditsMulti (input0.map Char.toLower) m.depth)
      (sp1 m (input0.map Char.toLower) (sp0 m (input0.map Char.toLower))),
      PotOK input0 p := by
    intro p hp
    rcases sp2_mem hp with hp' | ⟨e, he, ht, hlen⟩
    · exact h1 p hp'
    · have hle := editsMulti_length_le e he
      refine Or.inr ⟨?_, hin' (by omega)⟩
      rw [ht]
      intro hnil
      rw [hnil] at hlen
      simp at hlen
  have h3 : ∀ p ∈ sp3 m (input0.map Char.toLower)
      (EditsMulti (input0.map Char.toLower) m.depth)
      (sp2 m (input0.map Char.toLower)
        (EditsMulti (input0.map Char.toLower) m.depth)
        (sp1 m (input0.map Char.toLower) (sp0 m (input0.map Char.toLower)))),
      PotOK input0 p := by
    intro p hp
    rcases sp3_mem hp with hp' | ⟨e, he, w, hw, ht⟩
    · exact h2 p hp'
    · obtain ⟨hkey, hwlen⟩ := goodSuggest_lookupD hg _ w hw
      have hle := editsMulti_length_le e he
      refine Or.inr ⟨?_, hin' (by omega)⟩
      rw [ht]
      intro hnil
      rw [hnil] at hwlen
      simp at hwlen
  intro p hp
  unfold suggestPotential at hp
  by_cases c0 : score m (input0.map Char.toLower) > 5 ∧ ex = false
  · rw [if_pos c0] at hp
    exact h0 p hp
  · rw [if_neg c0] at hp
    by_cases c1 : (lookupP m.suggest (input0.map Char.toLower)).isSome ∧ ex = false
    · rw [if_pos c1] at hp
      exact h1 p hp
    · rw [if_neg c1] at hp
      by_cases c2 : sp2max m (EditsMulti (input0.map Char.toLower) m.depth) > 0 ∧ ex = false
      · rw [if_pos c2] at hp
        exact h2 p hp
      · rw [if_neg c2] at hp
        exact h3 p hp

theorem bestTier_ne_none (input : Str) (i : Nat) :
    ∀ (pots : List Potential) (b : Str) (bc : Int),
      (∀ p ∈ pots, PotOK input p) → bestTier input i pots b bc ≠ none := by
  intro pots
  induction pots with
  | nil => intro b bc _ h; simp [bestTier] at h
  | cons p rest ih =>
      intro b bc hok
      have hrest : ∀ q ∈ rest, PotOK input q :=
        fun q hq => hok q (List.mem_cons_of_mem _ hq)
      by_cases hp0 : p.leven = 0
      · simp [bestTier, hp0]
      · rcases hok p (List.mem_cons_self p rest) with h' | ⟨hterm, hinput⟩
        · exact absurd h' hp0
        · obtain ⟨tc, trest, htc⟩ : ∃ c r, p.term = c :: r := by
            cases h : p.term with
            | nil => exact absurd h hterm
            | cons c r => exact ⟨c, r, rfl⟩
          obtain ⟨ic, irest, rfl⟩ : ∃ c r, input = c :: r := by
            cases h : input with
            | nil => exact absurd h hinput
            | cons c r => exact ⟨c, r, rfl⟩
          by_cases hpi : p.leven = i
          · by_cases hsc : p.score > bc
            · simp only [bestTier, if_neg hp0, if_pos hpi, if_pos hsc, htc]
              exact ih _ _ hrest
            · simp only [bestTier, if_neg hp0, if_pos hpi, if_neg hsc]
              exact ih _ _ hrest
          · simp only [bestTier, if_neg hp0, if_neg hpi]
            exact ih _ _ hrest

theorem bestLoop_isSome (input : Str) (pots : List Potential)
    (hok : ∀ p ∈ pots, PotOK input p) :
    ∀ (tiers : List Nat) (b : Str) (bc : Int), (bestLoop input pots tiers b bc).isSome := by
  intro tiers
  induction tiers with
  | nil => intro b bc; simp [bestLoop]
  | cons i is ih =>
      intro b bc
      rcases hbt : bestTier input i pots b bc with _ | t | ⟨b', bc'⟩
      · exact absurd hbt (bestTier_ne_none input i pots b bc hok)
      · simp [bestLoop, hbt]
      · by_cases hbc : bc' > 0
        · simp [bestLoop, hbt, hbc]
        · simp only [bestLoop, hbt, if_neg hbc]
          exact ih b' bc'

/-- C6: the core operations are total on every reachable model state.
`Levenshtein`, `TrainWord`, `score` and `Suggestions` are total Lean
functions by construction; `best` (the only operation with a panic site)
returns a value on the candidate map of every query — exhaustive or not —
of every reachable model, including the fresh empty model and the empty
input, so `SpellCheck` always returns a value; and on an empty candidate
map the Ranker returns the empty string as its ordinary result. -/
theorem core_operations_total :
    (∀ m, Reachable m → ∀ input exhaustive,
      ∃ out, best input (suggestPotential m input exhaustive) = some out)
    ∧ (∀ m, Reachable m → ∀ input, ∃ out, SpellCheck m input = some out)
    ∧ (∀ input, best input [] = some []) := by
  have hbest : ∀ m, Reachable m → ∀ input exhaustive,
      ∃ out, best input (suggestPotential m input exhaustive) = some out := by
    intro m hm input ex
    have hok := suggestPotential_potOK m input ex (reachable_goodSuggest hm)
    have := bestLoop_isSome input (suggestPotential m input ex) hok [0, 1, 2, 3] [] 0
    exact Option.isSome_iff_exists.mp this
  refine ⟨hbest, fun m hm input => hbest m hm input false, fun input => rfl⟩

/-- C6 witness: `SpellCheck` on the fresh model and the input `"teh"`
returns a value (the empty string), and `best` of an empty candidate map
returns the empty string. -/
theorem core_operations_total_witness :
    (∃ out, SpellCheck NewModel ['t', 'e', 'h'] = some out)
    ∧ best ['t', 'e', 'h'] [] = some [] :=
  ⟨core_operations_total.2.1 NewModel Reachable.init ['t', 'e', 'h'],
    core_operations_total.2.2 ['t', 'e', 'h']⟩
